import Mathlib

/-!
Shallow embedding of the jsqi query language (src/jsqi.js): lexer
(`TokenStream`), precedence-climbing parser with the implicit-OR
("lazy") operator rule (`Parser`), AST evaluation with fuzzy term
matching (`Term`/`Not`/`Op`), and the `Interpreter` facade with its
memoized `compile` and `exec`.

Strings are embedded as `List Char`; JS objects used as integer-keyed
maps are embedded as association lists with JS property-assignment
(overwrite) semantics; JS `indexOf` returning `-1` is embedded as
`Option Nat`.
-/

namespace Jsqi

/-! ## Errors raised by the pipeline -/

inductive JsqiError where
  /-- `TokenStream.read_next`: "Unexpected character: <ch>" -/
  | unexpectedChar (ch : Char) : JsqiError
  /-- `Parser.unexpected`: "Unexpected token: ..." -/
  | unexpectedToken : JsqiError
  /-- `Parser.skip_punc`: "Expecting punctuation: <ch>" -/
  | expectingPunc (ch : Char) : JsqiError
  /-- `Parser.throw_lazy`: "Cannot mix lazy and non lazy operator" -/
  | mixedOperator : JsqiError
  /-- artifact of the embedding: recursion fuel ran out (never happens
  for the fuel chosen by `parseQuery` on the inputs considered here) -/
  | outOfFuel : JsqiError
deriving DecidableEq, Repr

deriving instance DecidableEq for Except

/-! ## Lexer (`InputStream` + `TokenStream`) -/

/-- Tokens produced by `TokenStream.read_next`; the JS token objects
`{type:'term',value}`, `{type:'!'}`, `{type:'&'}`/`{type:'|'}` and
`{type:'punc',value}`. -/
inductive Token where
  | term (value : List Char) : Token
  | bang : Token
  | op (ch : Char) : Token
  | punc (ch : Char) : Token
deriving DecidableEq, Repr

/-- `TokenStream.is_ch_whitespace`: `ch == ' '`. -/
def is_ch_whitespace (c : Char) : Bool := c = ' '

/-- `TokenStream.is_ch_term`: `/[a-z0-9]/i.test(ch)` (ASCII letter or digit). -/
def is_ch_term (c : Char) : Bool := c.isAlpha || c.isDigit

/-- `TokenStream.is_ch_op`: `"&|".indexOf(ch) >= 0`. -/
def is_ch_op (c : Char) : Bool := c = '&' || c = '|'

/-- `TokenStream.is_ch_punc`: `"()".indexOf(ch) >= 0`. -/
def is_ch_punc (c : Char) : Bool := c = '(' || c = ')'

/-- The loop of `TokenStream.read_escaped` after the opening quote has
been consumed: scans the remaining input with an `escaped` flag,
returning the accumulated value and the input left after the closing
quote (or after end of input).  `acc` holds the value read so far,
reversed. -/
def read_escaped_go : List Char → Bool → List Char → List Char × List Char
  | [], _, acc => (acc.reverse, [])
  | c :: t, true, acc => read_escaped_go t false (c :: acc)
  | c :: t, false, acc =>
    if c = '\\' then read_escaped_go t true acc
    else if c = '"' then (acc.reverse, t)
    else read_escaped_go t false (c :: acc)

/-- `TokenStream.read_next`: skip whitespace, then classify the next
character; returns the token (or `none` at end of input) and the
remaining input. -/
def read_next (s : List Char) : Except JsqiError (Option Token × List Char) :=
  match s.dropWhile is_ch_whitespace with
  | [] => .ok (none, [])
  | c :: t =>
    if c = '"' then
      -- read_string: read_escaped consumes the opening quote then scans
      let r := read_escaped_go t false []
      .ok (some (.term r.1), r.2)
    else if c = '!' then .ok (some .bang, t)
    else if is_ch_term c then
      let s1 := c :: t
      .ok (some (.term (s1.takeWhile is_ch_term)), s1.dropWhile is_ch_term)
    else if is_ch_op c then .ok (some (.op c), t)
    else if is_ch_punc c then .ok (some (.punc c), t)
    else .error (.unexpectedChar c)

/-- Repeatedly apply `read_next` until end of input, collecting the
token sequence (used to state lexer-level claims). -/
def lexAll : Nat → List Char → Except JsqiError (List Token)
  | 0, _ => .error .outOfFuel
  | fuel + 1, s =>
    match read_next s with
    | .error e => .error e
    | .ok (none, _) => .ok []
    | .ok (some t, rest) =>
      match lexAll fuel rest with
      | .error e => .error e
      | .ok ts => .ok (t :: ts)

/-- Lex a whole input. Every produced token consumes at least one
character, so `length + 1` steps always suffice. -/
def lex (s : List Char) : Except JsqiError (List Token) := lexAll (s.length + 1) s

/-! ## Match context (`Context`) -/

/-- A `{length, gap}` record stored in the context's `term` mapping. -/
structure Entry where
  length : Nat
  gap : Nat
deriving DecidableEq, Repr

/-- The `"term"` sub-mapping of `Context`: a JS object keyed by match
start offset, embedded as an association list. -/
abbrev TermMap := List (Nat × Entry)

/-- JS property assignment `m[k] = e`: replaces the entry at key `k`
if present, otherwise appends it. -/
def setEntry : TermMap → Nat → Entry → TermMap
  | [], k, e => [(k, e)]
  | (k', e') :: t, k, e => if k' = k then (k, e) :: t else (k', e') :: setEntry t k e

/-- JS property read `m[k]`: `none` embeds `undefined`. -/
def getEntry : TermMap → Nat → Option Entry
  | [], _ => none
  | (k', e') :: t, k => if k' = k then some e' else getEntry t k

/-- The `Context` returned by `Interpreter.exec`: the `success` flag
plus the `term` sub-mapping. -/
structure Context where
  success : Bool
  term : TermMap
deriving DecidableEq, Repr

/-! ## Fuzzy term matching (`Term`) -/

/-- JS `str.indexOf(value)`: index of the first occurrence of `value`
in `str`, with `none` embedding `-1`. -/
def jsIndexOf : List Char → List Char → Option Nat
  | [], pat => if pat = [] then some 0 else none
  | c :: t, pat =>
    if pat.isPrefixOf (c :: t) then some 0 else (jsIndexOf t pat).map (· + 1)

/-- `this.tolerance = Math.ceil(value.length / 4)`. -/
def tolerance (value : List Char) : Nat := (value.length + 3) / 4

/-- `Term.match(str, value, context)` of a term node whose full value
is `tvalue`: substring search for the candidate `value`; on success
record `{length: value.length, gap: tvalue.length - value.length}` at
the found index (JS property assignment) and return true. -/
def Term.matchCand (tvalue str value : List Char) (ctx : TermMap) : Bool × TermMap :=
  match jsIndexOf str value with
  | none => (false, ctx)
  | some index =>
    (true, setEntry ctx index ⟨value.length, tvalue.length - value.length⟩)

/-- The `while (gap <= this.tolerance && !match)` loop of `Term.exec`,
with `remaining` the number of gap values left to try (the loop runs
at most `tolerance + 1` times, for `gap = 0 .. tolerance`). -/
def Term.execAux (tvalue str : List Char) (ctx : TermMap) :
    Nat → Nat → Bool × TermMap
  | _, 0 => (false, ctx)
  | gap, remaining + 1 =>
    let value := tvalue.take (tvalue.length - gap)
    match Term.matchCand tvalue str value ctx with
    | (true, ctx') => (true, ctx')
    | (false, ctx') => Term.execAux tvalue str ctx' (gap + 1) remaining

/-- `Term.exec(str, context)`. -/
def Term.exec (tvalue str : List Char) (ctx : TermMap) : Bool × TermMap :=
  Term.execAux tvalue str ctx 0 (tolerance tvalue + 1)

/-! ## AST (`Term`, `Not`, `Op`) and evaluation -/

/-- AST nodes: `Term {value}`, `Not {value}`, `Op {type, left, right}`
(with `type` the operator character `'&'` or `'|'`). -/
inductive Node where
  | term (value : List Char) : Node
  | not (value : Node) : Node
  | op (type : Char) (left right : Node) : Node
deriving DecidableEq, Repr

/-- `exec(str, context)` of each node kind: evaluation returns the
boolean result together with the updated `term` mapping (the JS code
mutates the shared context in place). -/
def Node.exec : Node → List Char → TermMap → Bool × TermMap
  | .term v, str, ctx => Term.exec v str ctx
  | .not n, str, ctx =>
    let r := n.exec str ctx
    (!r.1, r.2)
  | .op t l r, str, ctx =>
    let lr := l.exec str ctx
    let rr := r.exec str lr.2
    (if t = '&' then lr.1 && rr.1 else lr.1 || rr.1, rr.2)

/-! ## Parser -/

/-- `Parser._precedence`: `'|' → 1`, `'&' → 2`. -/
def precedence (c : Char) : Nat := if c = '|' then 1 else if c = '&' then 2 else 0

/-- Parser state: the token stream's one-token lookahead buffer
(`TokenStream.current`), the unread input, and the parser's `is_lazy`
instance flag (`none` embeds JS `undefined`). -/
structure PState where
  cur : Option Token
  rest : List Char
  is_lazy : Option Bool
deriving DecidableEq, Repr

/-- `TokenStream.peek`: return the buffered token, reading a new one
into the buffer if empty. -/
def PState.peek (st : PState) : Except JsqiError (Option Token × PState) :=
  match st.cur with
  | some t => .ok (some t, st)
  | none =>
    match read_next st.rest with
    | .error e => .error e
    | .ok (ot, rest') => .ok (ot, { st with cur := ot, rest := rest' })

/-- `TokenStream.next`: consume the buffered token, or read one. -/
def PState.next (st : PState) : Except JsqiError (Option Token × PState) :=
  match st.cur with
  | some t => .ok (some t, { st with cur := none })
  | none =>
    match read_next st.rest with
    | .error e => .error e
    | .ok (ot, rest') => .ok (ot, { st with rest := rest' })

/-- `Parser.skip_punc(ch)`. -/
def skip_punc (ch : Char) (st : PState) : Except JsqiError PState :=
  match st.peek with
  | .error e => .error e
  | .ok (some (.punc c), st1) =>
    if c = ch then
      match st1.next with
      | .error e => .error e
      | .ok (_, st2) => .ok st2
    else .error (.expectingPunc ch)
  | .ok (_, _) => .error (.expectingPunc ch)

mutual

/-- `Parser.parse_operand(parse_op)`: with `parse_op` true, a primary
followed by explicit-operator climbing; with `parse_op` false, a
single primary (not / group / term) wrapped in `lazy_operator`. -/
def parse_operand : Nat → Bool → PState → Except JsqiError (Node × PState)
  | 0, _, _ => .error .outOfFuel
  | fuel + 1, parse_op, st =>
    if parse_op then
      match parse_operand fuel false st with
      | .error e => .error e
      | .ok (e, st1) => parse_operator fuel e 0 st1
    else
      match st.peek with
      | .error e => .error e
      | .ok (some .bang, _) =>
        match parse_not fuel st with
        | .error e => .error e
        | .ok (e, st1) => lazy_operator fuel e st1
      | .ok (some (.punc '('), _) =>
        match parse_operands fuel st with
        | .error e => .error e
        | .ok (e, st1) => lazy_operator fuel e st1
      | .ok (some (.term _), _) =>
        match parse_term fuel st with
        | .error e => .error e
        | .ok (e, st1) => lazy_operator fuel e st1
      | .ok (_, _) => .error .unexpectedToken

/-- `Parser.lazy_operator(expr)` after the primary `expr` has been
parsed: at end of input, before an explicit operator or before `)` the
primary stands alone; otherwise an implicit `Or` is inferred, which is
rejected if the explicit-operator mode is already pinned
(`is_lazy == false`) and otherwise pins the implicit mode. -/
def lazy_operator : Nat → Node → PState → Except JsqiError (Node × PState)
  | 0, _, _ => .error .outOfFuel
  | fuel + 1, expr, st =>
    match st.peek with
    | .error e => .error e
    | .ok (none, st1) => .ok (expr, st1)
    | .ok (some (.op _), st1) => .ok (expr, st1)
    | .ok (some (.punc ')'), st1) => .ok (expr, st1)
    | .ok (some _, st1) =>
      if st1.is_lazy = some false then .error .mixedOperator
      else
        match parse_operand fuel true { st1 with is_lazy := some true } with
        | .error e => .error e
        | .ok (right, st2) => .ok (.op '|' expr right, st2)

/-- `Parser.parse_operator(left, prec)`: precedence climbing over the
explicit operators, which is rejected if the implicit mode is already
pinned (`is_lazy == true`) and otherwise pins the explicit mode. -/
def parse_operator : Nat → Node → Nat → PState → Except JsqiError (Node × PState)
  | 0, _, _, _ => .error .outOfFuel
  | fuel + 1, left, prec, st =>
    match st.peek with
    | .error e => .error e
    | .ok (some (.op c), st1) =>
      if st1.is_lazy = some true then .error .mixedOperator
      else
        let st2 := { st1 with is_lazy := some false }
        if precedence c > prec then
          match st2.next with
          | .error e => .error e
          | .ok (_, st3) =>
            match parse_operand fuel false st3 with
            | .error e => .error e
            | .ok (e1, st4) =>
              match parse_operator fuel e1 (precedence c) st4 with
              | .error e => .error e
              | .ok (e2, st5) => parse_operator fuel (.op c left e2) prec st5
        else .ok (left, st2)
    | .ok (_, st1) => .ok (left, st1)

/-- `Parser.parse_operands`: `'('` then `parse_operand(true)` then `')'`. -/
def parse_operands : Nat → PState → Except JsqiError (Node × PState)
  | 0, _ => .error .outOfFuel
  | fuel + 1, st =>
    match skip_punc '(' st with
    | .error e => .error e
    | .ok st1 =>
      match parse_operand fuel true st1 with
      | .error e => .error e
      | .ok (e, st2) =>
        match skip_punc ')' st2 with
        | .error e => .error e
        | .ok st3 => .ok (e, st3)

/-- `Parser.parse_not`: consume `'!'`, then `Not(parse_operand(false))`. -/
def parse_not : Nat → PState → Except JsqiError (Node × PState)
  | 0, _ => .error .outOfFuel
  | fuel + 1, st =>
    match st.next with
    | .error e => .error e
    | .ok (_, st1) =>
      match parse_operand fuel false st1 with
      | .error e => .error e
      | .ok (e, st2) => .ok (.not e, st2)

/-- `Parser.parse_term`: `new Term(this.input.next().value)`. -/
def parse_term : Nat → PState → Except JsqiError (Node × PState)
  | 0, _ => .error .outOfFuel
  | _ + 1, st =>
    match st.next with
    | .error e => .error e
    | .ok (some (.term v), st1) => .ok (.term v, st1)
    | .ok (_, _) => .error .unexpectedToken

end

/-! ## Interpreter -/

/-- Compile a query string: `Parser.parse_operand(true)` from a fresh
token stream with the `is_lazy` flag unset.  Each parser step consumes
tokens or descends strictly, so `4 * length + 16` fuel is ample for
the inputs considered. -/
def parseQuery (s : List Char) : Except JsqiError Node :=
  match parse_operand (4 * s.length + 16) true ⟨none, s, none⟩ with
  | .error e => .error e
  | .ok (n, _) => .ok n

/-- `Interpreter`: the query input plus the memoized compiled tree
(`this.value`). -/
structure Interpreter where
  input : List Char
  value : Option Node
deriving DecidableEq, Repr

/-- `new Interpreter(input)`: no eager parse. -/
def Interpreter.new (s : List Char) : Interpreter := ⟨s, none⟩

/-- `Interpreter.compile`: `this.value || (this.value = parse...)`.
Returns the tree, the updated interpreter, and whether this call
actually parsed (false whenever the cache was hit). -/
def Interpreter.compile (i : Interpreter) :
    Except JsqiError (Node × Interpreter × Bool) :=
  match i.value with
  | some v => .ok (v, i, false)
  | none =>
    match parseQuery i.input with
    | .error e => .error e
    | .ok n => .ok (n, { i with value := some n }, true)

/-- `Interpreter.exec(str)`: compile, evaluate against a fresh empty
context, set `context.success`, return the context (and the updated
interpreter, carrying the compile cache). -/
def Interpreter.exec (i : Interpreter) (str : List Char) :
    Except JsqiError (Context × Interpreter) :=
  match i.compile with
  | .error e => .error e
  | .ok (n, i', _) =>
    let r := n.exec str []
    .ok ({ success := r.1, term := r.2 }, i')

/-! ## Occurrence predicates and the characterization of `jsIndexOf` -/

/-- `pat` occurs in `s` starting at offset `i`. -/
def OccursAt (pat s : List Char) (i : Nat) : Prop := pat <+: s.drop i

/-- `pat` occurs somewhere in `s` as a literal substring. -/
def Occurs (pat s : List Char) : Prop := ∃ i, OccursAt pat s i

instance (pat s : List Char) (i : Nat) : Decidable (OccursAt pat s i) := by
  unfold OccursAt; infer_instance

theorem occursAt_cons_succ (pat : List Char) (c : Char) (t : List Char) (i : Nat) :
    OccursAt pat (c :: t) (i + 1) ↔ OccursAt pat t i := Iff.rfl

theorem occurs_nil_iff (pat : List Char) : Occurs pat [] ↔ pat = [] := by
  constructor
  · rintro ⟨i, h⟩
    simpa [OccursAt, List.prefix_nil] using h
  · rintro rfl
    exact ⟨0, List.nil_prefix⟩

theorem occurs_cons_iff (pat : List Char) (c : Char) (t : List Char) :
    Occurs pat (c :: t) ↔ (pat <+: c :: t ∨ Occurs pat t) := by
  constructor
  · rintro ⟨i, h⟩
    match i with
    | 0 => exact Or.inl h
    | i + 1 => exact Or.inr ⟨i, h⟩
  · rintro (h | ⟨i, h⟩)
    · exact ⟨0, h⟩
    · exact ⟨i + 1, h⟩

/-- `str.indexOf(value) == -1` exactly when `value` occurs nowhere in `str`. -/
theorem jsIndexOf_eq_none_iff (s pat : List Char) :
    jsIndexOf s pat = none ↔ ¬ Occurs pat s := by
  induction s with
  | nil =>
    by_cases hp : pat = [] <;> simp [jsIndexOf, hp, occurs_nil_iff]
  | cons c t ih =>
    by_cases hp : pat.isPrefixOf (c :: t)
    · have hp' : pat <+: c :: t := List.isPrefixOf_iff_prefix.mp hp
      simp [jsIndexOf, hp, occurs_cons_iff, hp']
    · have hp' : ¬ pat <+: c :: t := fun h => hp (List.isPrefixOf_iff_prefix.mpr h)
      simp [jsIndexOf, hp, occurs_cons_iff, hp', ih]

/-- `str.indexOf(value)` returns exactly the offset of the first
occurrence of `value` in `str`. -/
theorem jsIndexOf_eq_some_iff (s pat : List Char) (i : Nat) :
    jsIndexOf s pat = some i ↔
      (OccursAt pat s i ∧ ∀ j, j < i → ¬ OccursAt pat s j) := by
  induction s generalizing i with
  | nil =>
    by_cases hp : pat = []
    · subst hp
      constructor
      · rintro h
        simp [jsIndexOf] at h
        subst h
        exact ⟨List.nil_prefix, by omega⟩
      · rintro ⟨_, hmin⟩
        have : i = 0 := by
          by_contra hne
          exact hmin 0 (by omega) List.nil_prefix
        subst this
        simp [jsIndexOf]
    · simp only [jsIndexOf, if_neg hp]
      constructor
      · rintro h; cases h
      · rintro ⟨h, _⟩
        exact absurd (List.prefix_nil.mp (by simpa [OccursAt] using h)) hp
  | cons c t ih =>
    by_cases hp : pat.isPrefixOf (c :: t)
    · have hp' : pat <+: c :: t := List.isPrefixOf_iff_prefix.mp hp
      simp only [jsIndexOf, if_pos hp]
      constructor
      · rintro h
        cases h
        exact ⟨hp', by omega⟩
      · rintro ⟨_, hmin⟩
        have : i = 0 := by
          by_contra hne
          exact hmin 0 (by omega) hp'
        simp [this]
    · have hp' : ¬ pat <+: c :: t := fun h => hp (List.isPrefixOf_iff_prefix.mpr h)
      simp only [jsIndexOf, if_neg hp, Option.map_eq_some']
      constructor
      · rintro ⟨i', hi', rfl⟩
        obtain ⟨h1, h2⟩ := (ih i').mp hi'
        refine ⟨h1, ?_⟩
        intro j hj
        match j with
        | 0 => exact hp'
        | j + 1 =>
          rw [occursAt_cons_succ]
          exact h2 j (by omega)
      · rintro ⟨h1, h2⟩
        match i with
        | 0 => exact absurd h1 hp'
        | i + 1 =>
          refine ⟨i, (ih i).mpr ⟨h1, ?_⟩, rfl⟩
          intro j hj
          have := h2 (j + 1) (by omega)
          rwa [occursAt_cons_succ] at this

/-- The empty pattern occurs at offset 0 of every string (JS
`str.indexOf("") == 0`). -/
theorem jsIndexOf_nil (s : List Char) : jsIndexOf s [] = some 0 := by
  cases s <;> simp [jsIndexOf, List.isPrefixOf]

/-! ## Facts about the fuzzy-match loop -/

/-- The candidate tried at a given gap:
`this.value.substring(0, this.value.length - gap)`. -/
def candidate (tvalue : List Char) (gap : Nat) : List Char :=
  tvalue.take (tvalue.length - gap)

theorem tolerance_le_length (v : List Char) : tolerance v ≤ v.length := by
  unfold tolerance
  calc (v.length + 3) / 4 ≤ (3 + 4 * v.length) / 4 :=
        Nat.div_le_div_right (by omega)
    _ = 3 / 4 + v.length := Nat.add_mul_div_left 3 v.length (by norm_num)
    _ = v.length := by norm_num

theorem candidate_length (v : List Char) (g : Nat) :
    (candidate v g).length = v.length - g := by
  simp [candidate]

theorem matchCand_of_none (tv s v : List Char) (ctx : TermMap)
    (h : jsIndexOf s v = none) : Term.matchCand tv s v ctx = (false, ctx) := by
  simp [Term.matchCand, h]

theorem matchCand_of_some (tv s v : List Char) (ctx : TermMap) (i : Nat)
    (h : jsIndexOf s v = some i) :
    Term.matchCand tv s v ctx =
      (true, setEntry ctx i ⟨v.length, tv.length - v.length⟩) := by
  simp [Term.matchCand, h]

/-- If every gap tried by the loop fails, the loop returns false with
the context untouched. -/
theorem execAux_all_fail (tv s : List Char) (ctx : TermMap) (g r : Nat)
    (h : ∀ d, d < r → jsIndexOf s (candidate tv (g + d)) = none) :
    Term.execAux tv s ctx g r = (false, ctx) := by
  induction r generalizing g with
  | zero => rfl
  | succ r ih =>
    have h0 : jsIndexOf s (candidate tv g) = none := by
      have := h 0 (by omega)
      simpa using this
    have step : Term.matchCand tv s (tv.take (tv.length - g)) ctx = (false, ctx) :=
      matchCand_of_none tv s _ ctx h0
    simp only [Term.execAux, step]
    apply ih
    intro d hd
    have := h (d + 1) (by omega)
    rwa [show g + (d + 1) = g + 1 + d by omega] at this

/-- If gap `g + d` is the first gap (at or after `g`) whose candidate
occurs, the loop stops there, records the candidate's `{length, gap}`
entry at the found index, and returns true. -/
theorem execAux_found (tv s : List Char) (ctx : TermMap) (g r d i : Nat)
    (hd : d < r)
    (hfound : jsIndexOf s (candidate tv (g + d)) = some i)
    (hmin : ∀ d', d' < d → jsIndexOf s (candidate tv (g + d')) = none) :
    Term.execAux tv s ctx g r =
      (true, setEntry ctx i
        ⟨(candidate tv (g + d)).length,
         tv.length - (candidate tv (g + d)).length⟩) := by
  induction r generalizing g d with
  | zero => omega
  | succ r ih =>
    match d with
    | 0 =>
      have h0 : jsIndexOf s (candidate tv g) = some i := by simpa using hfound
      have step := matchCand_of_some tv s (tv.take (tv.length - g)) ctx i h0
      simp only [Term.execAux, step]
      simp [candidate]
    | d + 1 =>
      have h0 : jsIndexOf s (candidate tv g) = none := by
        have := hmin 0 (by omega)
        simpa using this
      have step : Term.matchCand tv s (tv.take (tv.length - g)) ctx = (false, ctx) :=
        matchCand_of_none tv s _ ctx h0
      simp only [Term.execAux, step]
      have e1 : g + 1 + d = g + (d + 1) := by omega
      have := ih (g + 1) d (by omega)
        (by rwa [e1]) (fun d' hd' => by
          have := hmin (d' + 1) (by omega)
          rwa [show g + (d' + 1) = g + 1 + d' by omega] at this)
      rwa [e1] at this

/-- The boolean result of the fuzzy-match loop does not depend on the
incoming context (the context is only written, never read). -/
theorem execAux_fst_indep (tv s : List Char) (ctx ctx' : TermMap) (g r : Nat) :
    (Term.execAux tv s ctx g r).1 = (Term.execAux tv s ctx' g r).1 := by
  induction r generalizing g ctx ctx' with
  | zero => rfl
  | succ r ih =>
    cases h : jsIndexOf s (tv.take (tv.length - g)) with
    | none =>
      simp only [Term.execAux, matchCand_of_none tv s _ _ h]
      exact ih ctx ctx' (g + 1)
    | some i =>
      simp only [Term.execAux, matchCand_of_some tv s _ _ i h]

/-- The boolean result of any node's evaluation does not depend on the
incoming context. -/
theorem Node.exec_fst_indep (n : Node) (s : List Char) (ctx ctx' : TermMap) :
    (n.exec s ctx).1 = (n.exec s ctx').1 := by
  induction n generalizing ctx ctx' with
  | term v => exact execAux_fst_indep v s ctx ctx' 0 (tolerance v + 1)
  | not m ih => simp only [Node.exec]; rw [ih ctx ctx']
  | op t l r ihl ihr =>
    simp only [Node.exec]
    rw [ihl ctx ctx', ihr (l.exec s ctx).2 (l.exec s ctx').2]

/-! ## Claim theorems -/

/-- C1: For a term value `v` with `n = length v` and
`tolerance = ceil(n/4)`, and any subject `s`, `Term.exec` returns true
iff some gap in `0..tolerance` makes the prefix `v[0 .. n-gap)` occur
as a literal substring of `s`; on the smallest such gap it records
`{length: n-gap, gap}` at the offset of the first occurrence (trying
no larger gap), and if every gap in `0..tolerance` fails it returns
false with the context untouched. -/
theorem term_exec_spec (v s : List Char) (ctx : TermMap) :
    ((Term.exec v s ctx).1 = true ↔
        ∃ g, g ≤ tolerance v ∧ Occurs (candidate v g) s)
    ∧ (∀ g i, g ≤ tolerance v →
        (∀ g', g' < g → ¬ Occurs (candidate v g') s) →
        OccursAt (candidate v g) s i →
        (∀ j, j < i → ¬ OccursAt (candidate v g) s j) →
        Term.exec v s ctx = (true, setEntry ctx i ⟨v.length - g, g⟩))
    ∧ ((∀ g, g ≤ tolerance v → ¬ Occurs (candidate v g) s) →
        Term.exec v s ctx = (false, ctx)) := by
  have hfail : (∀ g, g ≤ tolerance v → ¬ Occurs (candidate v g) s) →
      Term.exec v s ctx = (false, ctx) := by
    intro h
    apply execAux_all_fail
    intro d hd
    rw [Nat.zero_add]
    exact (jsIndexOf_eq_none_iff s (candidate v d)).mpr (h d (by omega))
  have hrec : ∀ g i, g ≤ tolerance v →
      (∀ g', g' < g → ¬ Occurs (candidate v g') s) →
      OccursAt (candidate v g) s i →
      (∀ j, j < i → ¬ OccursAt (candidate v g) s j) →
      Term.exec v s ctx = (true, setEntry ctx i ⟨v.length - g, g⟩) := by
    intro g i hg hming hocc hmini
    have hfound : jsIndexOf s (candidate v g) = some i :=
      (jsIndexOf_eq_some_iff s (candidate v g) i).mpr ⟨hocc, hmini⟩
    have h := execAux_found v s ctx 0 (tolerance v + 1) g i (by omega)
      (by rwa [Nat.zero_add])
      (fun d' hd' => by
        rw [Nat.zero_add]
        exact (jsIndexOf_eq_none_iff s (candidate v d')).mpr (hming d' hd'))
    rw [Nat.zero_add] at h
    rw [Term.exec, h, candidate_length]
    have hglen : g ≤ v.length := le_trans hg (tolerance_le_length v)
    rw [show v.length - (v.length - g) = g by omega]
  refine ⟨?_, hrec, hfail⟩
  constructor
  · intro htrue
    by_contra hno
    push_neg at hno
    have := hfail (fun g hg => hno g hg)
    rw [this] at htrue
    simp at htrue
  · rintro ⟨g, hg, hocc⟩
    have hex : ∃ k, k ≤ tolerance v ∧ (jsIndexOf s (candidate v k)).isSome := by
      refine ⟨g, hg, ?_⟩
      rw [Option.isSome_iff_ne_none]
      intro hnone
      exact ((jsIndexOf_eq_none_iff s (candidate v g)).mp hnone) hocc
    classical
    let g0 := Nat.find hex
    obtain ⟨hg0le, hg0some⟩ := Nat.find_spec hex
    obtain ⟨i, hi⟩ := Option.isSome_iff_exists.mp hg0some
    have h := execAux_found v s ctx 0 (tolerance v + 1) g0 i (by omega)
      (by rwa [Nat.zero_add])
      (fun d' hd' => by
        rw [Nat.zero_add]
        have hnot := Nat.find_min hex hd'
        rw [Option.eq_none_iff_forall_not_mem]
        intro j hj
        exact hnot ⟨by omega, Option.isSome_iff_exists.mpr ⟨j, hj⟩⟩)
    rw [Nat.zero_add] at h
    rw [Term.exec, h]

/-- Witness for C1: `Term.exec` of `"ab"` against `"xab"` (gap 0,
first occurrence at offset 1), and against `"z"` (every gap fails). -/
theorem term_exec_spec_witness :
    Term.exec ['a', 'b'] ['x', 'a', 'b'] [] = (true, [(1, ⟨2, 0⟩)])
    ∧ Term.exec ['a', 'b'] ['z'] [] = (false, []) := by
  constructor
  · have h := (term_exec_spec ['a', 'b'] ['x', 'a', 'b'] []).2.1 0 1 (by decide)
      (fun g' hg' => absurd hg' (Nat.not_lt_zero g')) (by decide) (by decide)
    exact h.trans (by decide)
  · refine (term_exec_spec ['a', 'b'] ['z'] []).2.2 ?_
    intro g hg
    have htol : tolerance ['a', 'b'] = 1 := by decide
    have : g = 0 ∨ g = 1 := by omega
    rcases this with rfl | rfl
    · exact (jsIndexOf_eq_none_iff _ _).mp (by decide)
    · exact (jsIndexOf_eq_none_iff _ _).mp (by decide)

theorem getEntry_setEntry (m : TermMap) (k : Nat) (e : Entry) :
    getEntry (setEntry m k e) k = some e := by
  induction m with
  | nil => simp [setEntry, getEntry]
  | cons kv t ih =>
    obtain ⟨k', e'⟩ := kv
    by_cases h : k' = k <;> simp [setEntry, getEntry, h, ih]

/-- C2 is refuted: during one evaluation pass, a later `Term` matching
at an already-recorded offset overwrites the existing entry.  Against
the subject `"abc"`, the first term `"ab"` alone records
`{length 2, gap 0}` at offset 0, but after the second term `"abcd"`
(which fuzzy-matches `"abc"` at gap 1 at the same offset) the final
mapping holds `{length 3, gap 1}`, not the first entry. -/
theorem term_overwrite_counterexample :
    (Node.exec (.term ['a', 'b']) ['a', 'b', 'c'] []).2 = [(0, ⟨2, 0⟩)]
    ∧ (Node.exec (.op '|' (.term ['a', 'b']) (.term ['a', 'b', 'c', 'd']))
        ['a', 'b', 'c'] []).2 = [(0, ⟨3, 1⟩)]
    ∧ getEntry (Node.exec (.op '|' (.term ['a', 'b']) (.term ['a', 'b', 'c', 'd']))
        ['a', 'b', 'c'] []).2 0 ≠ some ⟨2, 0⟩ := by decide

/-- C2 amended: for every offset at which a match is discovered, the
`{length, gap}` record is written with JS property-assignment
semantics, so the LAST match discovered at that offset during a single
evaluation pass is retained — a later `Term` matching at an
already-recorded offset overwrites the existing entry. -/
theorem term_match_overwrites (tv s cand : List Char) (ctx : TermMap) (i : Nat)
    (h : jsIndexOf s cand = some i) :
    (Term.matchCand tv s cand ctx).2 =
      setEntry ctx i ⟨cand.length, tv.length - cand.length⟩
    ∧ getEntry (Term.matchCand tv s cand ctx).2 i =
      some ⟨cand.length, tv.length - cand.length⟩ := by
  rw [matchCand_of_some tv s cand ctx i h]
  exact ⟨rfl, getEntry_setEntry ctx i _⟩

/-- Witness for the amended C2: recording `"abc"` (gap 1 of `"abcd"`)
at offset 0 on top of a context that already holds `{2, 0}` there
replaces the old entry. -/
theorem term_match_overwrites_witness :
    (Term.matchCand ['a', 'b', 'c', 'd'] ['a', 'b', 'c'] ['a', 'b', 'c']
        [(0, ⟨2, 0⟩)]).2 = [(0, ⟨3, 1⟩)] := by
  have h := term_match_overwrites ['a', 'b', 'c', 'd'] ['a', 'b', 'c']
    ['a', 'b', 'c'] [(0, ⟨2, 0⟩)] 0 (by decide)
  exact h.1.trans (by decide)

/-- C3: `Op.exec` evaluates both children unconditionally — the final
context is always the right child's update of the left child's update,
whatever the boolean results — and returns left AND right for `'&'`,
left OR right for `'|'`; in particular `And(TermA, TermB)` against a
subject where TermA fails still records TermB's match. -/
theorem op_exec_no_short_circuit :
    (∀ (t : Char) (l r : Node) (s : List Char) (ctx : TermMap),
        (Node.exec (.op t l r) s ctx).2 = (r.exec s (l.exec s ctx).2).2)
    ∧ (∀ (l r : Node) (s : List Char) (ctx : TermMap),
        (Node.exec (.op '&' l r) s ctx).1 = ((l.exec s ctx).1 && (r.exec s ctx).1))
    ∧ (∀ (l r : Node) (s : List Char) (ctx : TermMap),
        (Node.exec (.op '|' l r) s ctx).1 = ((l.exec s ctx).1 || (r.exec s ctx).1))
    ∧ Node.exec (.op '&' (.term ['z', 'z']) (.term ['a', 'b'])) ['a', 'b'] []
        = (false, [(0, ⟨2, 0⟩)]) := by
  refine ⟨?_, ?_, ?_, by decide⟩
  · intro t l r s ctx
    simp [Node.exec]
  · intro l r s ctx
    simp only [Node.exec, if_pos rfl]
    rw [Node.exec_fst_indep r s (l.exec s ctx).2 ctx]
    simp
  · intro l r s ctx
    simp only [Node.exec]
    rw [if_neg (by decide), Node.exec_fst_indep r s (l.exec s ctx).2 ctx]

/-- C4: mixing implicit-OR juxtaposition with an explicit operator in
one parse raises the mixed-operator error (`a b & c` and `a & b c`),
while the purely implicit `a b c` compiles and its tree evaluates —
boolean result and context mutations alike — exactly as the tree of
the explicit `a | b | c`. -/
theorem mixed_operator_rejection :
    parseQuery ("a b & c".toList) = .error .mixedOperator
    ∧ parseQuery ("a & b c".toList) = .error .mixedOperator
    ∧ parseQuery ("a b c".toList)
        = .ok (.op '|' (.term ['a']) (.op '|' (.term ['b']) (.term ['c'])))
    ∧ parseQuery ("a | b | c".toList)
        = .ok (.op '|' (.op '|' (.term ['a']) (.term ['b'])) (.term ['c']))
    ∧ ∀ (s : List Char) (ctx : TermMap),
        Node.exec (.op '|' (.term ['a']) (.op '|' (.term ['b']) (.term ['c']))) s ctx
          = Node.exec (.op '|' (.op '|' (.term ['a']) (.term ['b'])) (.term ['c'])) s ctx := by
  refine ⟨by decide, by decide, by decide, by decide, ?_⟩
  intro s ctx
  simp [Node.exec, Bool.or_assoc]

/-- C5: And binds tighter than Or and `a & b | c` parses as
`(a & b) | c`; for the resulting shape, with any operands, the boolean
result is `(A && B) || C`, so it is true whenever A and B evaluate
true and C false, and whenever A evaluates false it equals C's result
alone. -/
theorem precedence_and_over_or :
    parseQuery ("a & b | c".toList)
      = .ok (.op '|' (.op '&' (.term ['a']) (.term ['b'])) (.term ['c']))
    ∧ (∀ (a b c : Node) (s : List Char) (ctx : TermMap),
        (Node.exec (.op '|' (.op '&' a b) c) s ctx).1
          = (((a.exec s ctx).1 && (b.exec s ctx).1) || (c.exec s ctx).1))
    ∧ (∀ (a b c : Node) (s : List Char) (ctx : TermMap),
        (a.exec s ctx).1 = true → (b.exec s ctx).1 = true →
        (c.exec s ctx).1 = false →
        (Node.exec (.op '|' (.op '&' a b) c) s ctx).1 = true)
    ∧ (∀ (a b c : Node) (s : List Char) (ctx : TermMap),
        (a.exec s ctx).1 = false →
        (Node.exec (.op '|' (.op '&' a b) c) s ctx).1 = (c.exec s ctx).1) := by
  have hbool : ∀ (a b c : Node) (s : List Char) (ctx : TermMap),
      (Node.exec (.op '|' (.op '&' a b) c) s ctx).1
        = (((a.exec s ctx).1 && (b.exec s ctx).1) || (c.exec s ctx).1) := by
    intro a b c s ctx
    simp only [Node.exec]
    norm_num
    rw [Node.exec_fst_indep b s (a.exec s ctx).2 ctx,
        Node.exec_fst_indep c s (b.exec s (a.exec s ctx).2).2 ctx]
    norm_num
    intro h
    exact absurd h (by decide)
  refine ⟨by decide, hbool, ?_, ?_⟩
  · intro a b c s ctx ha hb hc
    rw [hbool, ha, hb, hc]
    rfl
  · intro a b c s ctx ha
    rw [hbool, ha]
    simp

/-- Witness for C5: with `A = "ab"`, `B = "b"`, `C = "xy"` on subject
`"ab"` the conjunction matches and C fails, giving true; with
`A = "xy"` failing, the result equals C's alone. -/
theorem precedence_and_over_or_witness :
    (Node.exec (.op '|' (.op '&' (.term ['a', 'b']) (.term ['b']))
        (.term ['x', 'y'])) ['a', 'b'] []).1 = true
    ∧ (Node.exec (.op '|' (.op '&' (.term ['x', 'y']) (.term ['b']))
        (.term ['x', 'y'])) ['a', 'b'] []).1
      = (Node.exec (.term ['x', 'y']) ['a', 'b'] []).1 := by
  constructor
  · exact precedence_and_over_or.2.2.1 (.term ['a', 'b']) (.term ['b'])
      (.term ['x', 'y']) ['a', 'b'] [] (by decide) (by decide) (by decide)
  · exact precedence_and_over_or.2.2.2 (.term ['x', 'y']) (.term ['b'])
      (.term ['x', 'y']) ['a', 'b'] [] (by decide)

/-- C6: whenever compilation succeeds, `exec` evaluates the compiled
root against a fresh empty context (never one from a previous call),
sets `success` to the evaluation's boolean result, and returns that
context without any error of its own. -/
theorem interpreter_exec_fresh_context (i : Interpreter) (n : Node)
    (i' : Interpreter) (b : Bool) (s : List Char)
    (h : i.compile = .ok (n, i', b)) :
    i.exec s = .ok ({ success := (n.exec s []).1, term := (n.exec s []).2 }, i') := by
  unfold Interpreter.exec
  rw [h]

/-- Witness for C6: executing the compiled query `a` against `"za"`. -/
theorem interpreter_exec_fresh_context_witness :
    (Interpreter.new ['a']).exec ['z', 'a']
      = .ok ({ success := true, term := [(1, ⟨1, 0⟩)] },
             ⟨['a'], some (.term ['a'])⟩) := by
  have h := interpreter_exec_fresh_context (Interpreter.new ['a']) (.term ['a'])
    ⟨['a'], some (.term ['a'])⟩ true ['z', 'a'] (by decide)
  exact h.trans (by decide)

/-- C7 is refuted: the body of a `'!'` is parsed by
`parse_operand(false)`, which wraps the primary in `lazy_operator`, so
the negation DOES extend over a following implicitly-joined sequence:
`!a b` parses as `Not(a | b)`, which on subject `"b"` evaluates false,
whereas the single-primary reading `(!a) | b` evaluates true there. -/
theorem not_single_primary_counterexample :
    parseQuery ("!a b".toList) = .ok (.not (.op '|' (.term ['a']) (.term ['b'])))
    ∧ (Node.exec (.not (.op '|' (.term ['a']) (.term ['b']))) ['b'] []).1 = false
    ∧ (Node.exec (.op '|' (.not (.term ['a'])) (.term ['b'])) ['b'] []).1 = true := by
  decide

/-- C7 amended: a `'!'` applies to the result of `parse_operand(false)`,
which consumes a single primary TOGETHER with any implicitly-joined
continuation (via `lazy_operator`) but never an explicit-operator
continuation: `!a b` parses as `Not(a | b)`, while `!a & b` parses as
`(Not a) & b` and `!a | b` as `(Not a) | b`; nested negation `!!a`
parses as `Not(Not a)`. -/
theorem not_scope_amended :
    parseQuery ("!a b".toList) = .ok (.not (.op '|' (.term ['a']) (.term ['b'])))
    ∧ parseQuery ("!a & b".toList) = .ok (.op '&' (.not (.term ['a'])) (.term ['b']))
    ∧ parseQuery ("!a | b".toList) = .ok (.op '|' (.not (.term ['a'])) (.term ['b']))
    ∧ parseQuery ("!!a".toList) = .ok (.not (.not (.term ['a']))) := by
  decide

/-- C8: lexing a quoted term consumes the opening quote, scans until
an unescaped closing `"` or end of input — a backslash makes the
following character literal (including `\` and `"`) and resets the
escape state — and consumes the closing quote without including it in
the value; `"a\"b"` lexes to the single term `a"b` and `"a\\b"` to
`a\b`. -/
theorem quoted_term_lexing :
    lex ("\"a\\\"b\"".toList) = .ok [.term ['a', '"', 'b']]
    ∧ lex ("\"a\\\\b\"".toList) = .ok [.term ['a', '\\', 'b']]
    ∧ (∀ t : List Char, read_next ('"' :: t)
        = .ok (some (.term (read_escaped_go t false []).1),
               (read_escaped_go t false []).2))
    ∧ (∀ (c : Char) (t acc : List Char),
        read_escaped_go ('\\' :: c :: t) false acc = read_escaped_go t false (c :: acc))
    ∧ (∀ (t acc : List Char), read_escaped_go ('"' :: t) false acc = (acc.reverse, t))
    ∧ (∀ (esc : Bool) (acc : List Char), read_escaped_go [] esc acc = (acc.reverse, []))
    ∧ (∀ (c : Char) (t acc : List Char), c ≠ '\\' → c ≠ '"' →
        read_escaped_go (c :: t) false acc = read_escaped_go t false (c :: acc)) := by
  refine ⟨by decide, by decide, ?_, ?_, ?_, ?_, ?_⟩
  · intro t
    simp [read_next, List.dropWhile, is_ch_whitespace]
  · intro c t acc
    simp [read_escaped_go]
  · intro t acc
    simp [read_escaped_go]
  · intro esc acc
    cases esc <;> rfl
  · intro c t acc h1 h2
    simp [read_escaped_go, h1, h2]

/-- Witness for C8: reading the ordinary character `x` inside a quoted
term just appends it to the value. -/
theorem quoted_term_lexing_witness :
    read_escaped_go ['x', '"'] false ['a'] = (['a', 'x'], []) := by
  have h := quoted_term_lexing.2.2.2.2.2.2 'x' ['"'] ['a'] (by decide) (by decide)
  rw [h]
  exact (quoted_term_lexing.2.2.2.2.1 [] ['x', 'a']).trans (by decide)

/-- C9: `compile` is idempotent — once a call has returned a tree and
cached it, every later `compile` on the resulting interpreter returns
the very same tree, and the cached interpreter state, without parsing
again; the first call on a fresh interpreter is the one that parses. -/
theorem compile_idempotent :
    (∀ (i : Interpreter) (v : Node) (i' : Interpreter) (b : Bool),
        i.compile = .ok (v, i', b) → i'.compile = .ok (v, i', false))
    ∧ (∀ (s : List Char) (n : Node), parseQuery s = .ok n →
        (Interpreter.new s).compile = .ok (n, ⟨s, some n⟩, true)) := by
  constructor
  · intro i v i' b h
    unfold Interpreter.compile at h ⊢
    cases hv : i.value with
    | some v0 =>
      rw [hv] at h
      injection h with h
      injection h with h1 h2
      injection h2 with h2 h3
      subst h1
      subst h2
      rw [hv]
    | none =>
      rw [hv] at h
      cases hp : parseQuery i.input with
      | error e => rw [hp] at h; cases h
      | ok n =>
        rw [hp] at h
        injection h with h
        injection h with h1 h2
        injection h2 with h2 h3
        subst h1
        subst h2
        rfl
  · intro s n h
    unfold Interpreter.compile Interpreter.new
    simp [h]

/-- Witness for C9: compiling the query `a` parses once; recompiling
the cached interpreter returns the identical tree without parsing. -/
theorem compile_idempotent_witness :
    (Interpreter.new ['a']).compile
      = .ok (.term ['a'], ⟨['a'], some (.term ['a'])⟩, true)
    ∧ (⟨['a'], some (.term ['a'])⟩ : Interpreter).compile
      = .ok (.term ['a'], ⟨['a'], some (.term ['a'])⟩, false) := by
  have h1 : (Interpreter.new ['a']).compile
      = .ok (.term ['a'], ⟨['a'], some (.term ['a'])⟩, true) := by decide
  exact ⟨h1, compile_idempotent.1 _ _ _ _ h1⟩

/-- C10: the query consisting of an empty quoted term compiles to a
`Term` node with empty value and tolerance 0, which matches every
subject at offset 0 recording `{length 0, gap 0}`, so `exec` returns
`success := true` for every subject. -/
theorem empty_term_matches_everything :
    parseQuery ("\"\"".toList) = .ok (.term [])
    ∧ tolerance [] = 0
    ∧ (∀ s : List Char, Term.exec [] s [] = (true, [(0, ⟨0, 0⟩)]))
    ∧ (∀ s : List Char, (Interpreter.new ("\"\"".toList)).exec s
        = .ok ({ success := true, term := [(0, ⟨0, 0⟩)] },
               ⟨"\"\"".toList, some (.term [])⟩)) := by
  have h3 : ∀ s : List Char, Term.exec [] s [] = (true, [(0, ⟨0, 0⟩)]) := by
    intro s
    show Term.execAux [] s [] 0 1 = _
    simp [Term.execAux, Term.matchCand, jsIndexOf_nil, setEntry]
  refine ⟨by decide, by decide, h3, ?_⟩
  intro s
  unfold Interpreter.exec
  rw [show (Interpreter.new ("\"\"".toList)).compile
      = .ok (.term [], ⟨"\"\"".toList, some (.term [])⟩, true) by decide]
  simp only [Node.exec, h3 s]

end Jsqi
